import Mathlib

/-!
Shallow embedding of the concurrent data structures of `src/atomics.hpp`
(`tycho::atomic::stack_t`, `buffer_t`, `dictionary_t`), together with
proofs and refutations of the specified sequential properties.

All operations are modelled in their sequential (single-thread,
uninterleaved) semantics: each C++ atomic read-modify-write becomes a
pure state transition.  Machine integers are modelled as `Int` / `Nat`
with the implicit integral conversions of the C++ source made explicit.
-/

namespace ModernCLI

/-- Width of `std::size_t` (the counters of `dictionary_t` are
`std::atomic<std::size_t>`, which wrap modulo `2^64`). -/
def sizeW : Nat := 2 ^ 64

/-- The value a C++ `int` takes when converted to `std::size_t`
(the usual arithmetic conversion applied when `count >= S` compares a
signed `int` against an unsigned `std::size_t`). -/
def intToSize (c : Int) : Nat := (c % (2 ^ 64 : Int)).toNat

/-! ### `tycho::atomic::stack_t<T, S>`

State: `count_ : std::atomic<int>` and the backing array `data_[S]`.
The array is modelled as a total function `Nat → T`, standing for
whatever the underlying memory holds (slots above the occupancy are
uninitialised but readable). -/

structure StackT (T : Type) where
  count : Int
  data : Nat → T

/-- `stack_t::size()`: load `count_`; negative counts clamp to `0`,
counts above `S` clamp to `S` (the comparison `count > S` converts the
`int` to `std::size_t`, but the negative case has already returned). -/
def StackT.size (S : Nat) (s : StackT T) : Nat :=
  if s.count < 0 then 0
  else if S < intToSize s.count then S
  else intToSize s.count

/-- `stack_t::push`: `count_.fetch_add(1)` returns the old `count`; if
`count >= S` (converted comparison) roll the increment back and fail,
otherwise store the item at slot `count`. -/
def StackT.push (S : Nat) (s : StackT T) (item : T) : StackT T × Bool :=
  let count := s.count
  if S ≤ intToSize count then
    (s, false)
  else
    ({ count := count + 1,
       data := fun i => if i = count.toNat then item else s.data i }, true)

/-- `stack_t::pull`: `count_.fetch_sub(1)` returns the old `count`; if
`count < 0` roll back and fail, otherwise read slot `count` (the
pre-decrement value) into the out-parameter.  The out-parameter/return
pair is modelled as an `Option`. -/
def StackT.pull (s : StackT T) : StackT T × Option T :=
  let count := s.count
  if count < 0 then (s, none)
  else ({ s with count := count - 1 }, some (s.data count.toNat))

/-- `stack_t::pop`: same algorithm as `pull`, returning
`std::optional<T>`. -/
def StackT.pop (s : StackT T) : StackT T × Option T :=
  let count := s.count
  if count < 0 then (s, none)
  else ({ s with count := count - 1 }, some (s.data count.toNat))

/-- An empty `stack_t<unsigned, 4>` fresh from the constructor:
occupancy `0`, array slots holding indeterminate memory (here `0`). -/
def emptyStack : StackT Nat := { count := 0, data := fun _ => 0 }

/-! ### `tycho::atomic::buffer_t<T, S>`

State: `head_`, `tail_ : std::atomic<unsigned>` and the array
`data_[S]`.  Indices always stay in `[0, S)`. -/

structure BufferT (T : Type) where
  head : Nat
  tail : Nat
  data : Nat → T

/-- `buffer_t::pull`: load `head` and `tail`; if equal report empty.
Otherwise read the slot at `head`, increment the local copy of `head`
(wrapping at `S`) — and then execute `tail_.store(tail)`: the code
publishes the unchanged `tail` and never writes `head_`, so the state
is left exactly as it was. -/
def BufferT.pull (S : Nat) (b : BufferT T) : BufferT T × Option T :=
  let head := b.head
  let tail := b.tail
  if head = tail then (b, none)
  else
    let item := b.data head
    let _head1 := if S ≤ head + 1 then head + 1 - S else head + 1
    ({ b with tail := tail }, some item)

/-- `buffer_t::pop`: same scan as `pull`, but the `return head;`
statement yields the incremented local head index (converted to `T`,
here `T = unsigned`), not the item read from the slot; the store again
targets `tail_`. -/
def BufferT.pop (S : Nat) (b : BufferT Nat) : BufferT Nat × Option Nat :=
  let head := b.head
  let tail := b.tail
  if head = tail then (b, none)
  else
    let _item := b.data head
    let head1 := if S ≤ head + 1 then head + 1 - S else head + 1
    ({ b with tail := tail }, some head1)

/-- A `buffer_t<unsigned, 4>` holding one element `42` at the head slot:
`head = 0`, `tail = 1`, `data[0] = 42`. -/
def demoBuf : BufferT Nat :=
  { head := 0, tail := 1, data := fun i => if i = 0 then 42 else 0 }

/-! ### `tycho::atomic::dictionary_t<K, V, S>`

State: a fixed array of `S` bucket heads, each the head of a
singly-linked chain of nodes `(key, value, next)`, plus
`count_ : std::atomic<std::size_t>`.  A chain is modelled as a
`List (K × V)` (head of the list = head of the chain); the table as a
total function `Nat → List (K × V)` whose relevant indices are
`0, …, S-1`.  The caller-supplied `std::hash<K>` is a parameter
`hash : K → Nat`. -/

/-- First-match lookup over a bucket chain: the traversal loop shared
by `find`, `contains` and `at`. -/
def lookupChain [DecidableEq K] : List (K × V) → K → Option V
  | [], _ => none
  | (k', v) :: rest, k => if k' = k then some v else lookupChain rest k

/-- The traversal loop of `contains` (same scan, boolean result). -/
def containsChain [DecidableEq K] : List (K × V) → K → Bool
  | [], _ => false
  | (k', _) :: rest, k => if k' = k then true else containsChain rest k

/-- The scan of `insert_or_assign`: overwrite the `value` field of the
first node with an equal key, in place; `none` when the chain holds no
such node. -/
def assignChain [DecidableEq K] : List (K × V) → K → V → Option (List (K × V))
  | [], _, _ => none
  | (k', v') :: rest, k, v =>
    if k' = k then some ((k', v) :: rest)
    else (assignChain rest k v).map (fun t => (k', v') :: t)

/-- The scan of `remove`: unlink the first node with an equal key
(splicing `prev->next` or the bucket head past it); `none` when the
chain holds no such node. -/
def removeChain [DecidableEq K] : List (K × V) → K → Option (List (K × V))
  | [], _ => none
  | (k', v') :: rest, k =>
    if k' = k then some rest
    else (removeChain rest k).map (fun t => (k', v') :: t)

/-- Number of nodes in a chain holding the given key. -/
def countKey [DecidableEq K] : List (K × V) → K → Nat
  | [], _ => 0
  | (k', _) :: rest, k => (if k' = k then 1 else 0) + countKey rest k

/-- `dictionary_t::key_index`: `std::hash<K>()(key) % S`. -/
def keyIdx (hash : K → Nat) (S : Nat) (k : K) : Nat := hash k % S

/-- Overwrite one bucket of the table, leaving all others alone. -/
def setBucket (t : Nat → List (K × V)) (i : Nat) (l : List (K × V)) :
    Nat → List (K × V) :=
  fun j => if j = i then l else t j

structure DictT (K V : Type) where
  table : Nat → List (K × V)
  count : Nat

/-- A freshly constructed `dictionary_t`: every bucket null, count 0. -/
def DictT.empty : DictT K V := { table := fun _ => [], count := 0 }

/-- `dictionary_t::insert`: unconditionally prepend a new node to the
target bucket via the CAS loop on the bucket head (sequentially: one
successful CAS), then `count_.fetch_add(1)`; always returns `true`. -/
def DictT.insert [DecidableEq K] (hash : K → Nat) (S : Nat)
    (d : DictT K V) (k : K) (v : V) : DictT K V × Bool :=
  let i := keyIdx hash S k
  ({ table := setBucket d.table i ((k, v) :: d.table i),
     count := (d.count + 1) % sizeW }, true)

/-- `dictionary_t::emplace`: the identical CAS-prepend algorithm as
`insert` (move-only arguments; moves are value-semantic here). -/
def DictT.emplace [DecidableEq K] (hash : K → Nat) (S : Nat)
    (d : DictT K V) (k : K) (v : V) : DictT K V × Bool :=
  let i := keyIdx hash S k
  ({ table := setBucket d.table i ((k, v) :: d.table i),
     count := (d.count + 1) % sizeW }, true)

/-- `dictionary_t::insert_or_assign`: scan the bucket for an equal key;
on a match mutate that node's value in place, otherwise fall through to
`insert`.  Returns `true` on both paths. -/
def DictT.insertOrAssign [DecidableEq K] (hash : K → Nat) (S : Nat)
    (d : DictT K V) (k : K) (v : V) : DictT K V × Bool :=
  let i := keyIdx hash S k
  match assignChain (d.table i) k v with
  | some chain => ({ d with table := setBucket d.table i chain }, true)
  | none => DictT.insert hash S d k v

/-- `dictionary_t::try_emplace`: scan the bucket for an equal key; if
present discard the candidate node and fail, otherwise delegate to
`emplace` and succeed. -/
def DictT.tryEmplace [DecidableEq K] (hash : K → Nat) (S : Nat)
    (d : DictT K V) (k : K) (v : V) : DictT K V × Bool :=
  let i := keyIdx hash S k
  if containsChain (d.table i) k then (d, false)
  else DictT.emplace hash S d k v

/-- `dictionary_t::find`: first-match scan of the target bucket. -/
def DictT.find [DecidableEq K] (hash : K → Nat) (S : Nat)
    (d : DictT K V) (k : K) : Option V :=
  lookupChain (d.table (keyIdx hash S k)) k

/-- `dictionary_t::contains`: same scan, boolean result. -/
def DictT.contains [DecidableEq K] (hash : K → Nat) (S : Nat)
    (d : DictT K V) (k : K) : Bool :=
  containsChain (d.table (keyIdx hash S k)) k

/-- `dictionary_t::at`: the same scan as `find`; `none` models the
`std::out_of_range` throw on absence. -/
def DictT.atVal [DecidableEq K] (hash : K → Nat) (S : Nat)
    (d : DictT K V) (k : K) : Option V :=
  lookupChain (d.table (keyIdx hash S k)) k

/-- `dictionary_t::remove`: scan the bucket with a trailing pointer;
on a match splice the first matching node out, delete it and
`count_.fetch_sub(1)` (`size_t` wrap-around made explicit); absent keys
leave the table untouched and return `false`. -/
def DictT.remove [DecidableEq K] (hash : K → Nat) (S : Nat)
    (d : DictT K V) (k : K) : DictT K V × Bool :=
  let i := keyIdx hash S k
  match removeChain (d.table i) k with
  | some chain =>
    ({ table := setBucket d.table i chain,
       count := (d.count + (sizeW - 1)) % sizeW }, true)
  | none => (d, false)

/-- `dictionary_t::clear`: detach and free every bucket's chain and
reset `count_` to zero. -/
def DictT.clear (d : DictT K V) : DictT K V :=
  { table := fun _ => [], count := 0 }

/-- `dictionary_t::size`: `count_.load()`. -/
def DictT.size (d : DictT K V) : Nat := d.count

/-- Total number of nodes reachable from all `S` bucket heads. -/
def totalNodes (S : Nat) (d : DictT K V) : Nat :=
  ∑ i in Finset.range S, (d.table i).length

/-- Number of nodes holding key `k`, across all `S` buckets. -/
def keyNodes [DecidableEq K] (S : Nat) (d : DictT K V) (k : K) : Nat :=
  ∑ i in Finset.range S, countKey (d.table i) k

/-- One sequential dictionary operation (the mutators of the API). -/
inductive DictOp (K V : Type) where
  | ins (k : K) (v : V)
  | asg (k : K) (v : V)
  | emp (k : K) (v : V)
  | tryEmp (k : K) (v : V)
  | rem (k : K)
  | clr

/-- Apply one operation, discarding the returned boolean. -/
def applyOp [DecidableEq K] (hash : K → Nat) (S : Nat)
    (d : DictT K V) : DictOp K V → DictT K V
  | .ins k v => (DictT.insert hash S d k v).1
  | .asg k v => (DictT.insertOrAssign hash S d k v).1
  | .emp k v => (DictT.emplace hash S d k v).1
  | .tryEmp k v => (DictT.tryEmplace hash S d k v).1
  | .rem k => (DictT.remove hash S d k).1
  | .clr => DictT.clear d

/-- Run a sequence of operations on a freshly constructed table. -/
def runOps [DecidableEq K] (hash : K → Nat) (S : Nat)
    (ops : List (DictOp K V)) : DictT K V :=
  ops.foldl (applyOp hash S) DictT.empty

/-- Run a sequence of `insert_or_assign` calls on a fresh table. -/
def runAssigns [DecidableEq K] (hash : K → Nat) (S : Nat)
    (ops : List (K × V)) : DictT K V :=
  ops.foldl (fun d kv => (DictT.insertOrAssign hash S d kv.1 kv.2).1) DictT.empty

/-- Run a sequence of plain `insert` calls on a fresh table. -/
def runInserts [DecidableEq K] (hash : K → Nat) (S : Nat)
    (ops : List (K × V)) : DictT K V :=
  ops.foldl (fun d kv => (DictT.insert hash S d kv.1 kv.2).1) DictT.empty

/-- The last value a sequence of keyed writes assigns to `k` (first
match in the reversed sequence), if any. -/
def lastAssigned [DecidableEq K] (ops : List (K × V)) (k : K) : Option V :=
  lookupChain ops.reverse k

/-- A `dictionary_t<unsigned, unsigned, 16>` (identity hash) holding a
single entry `1 ↦ 10`. -/
def oneDict : DictT Nat Nat := (DictT.insert id 16 DictT.empty 1 10).1

/-- The same table after a second plain `insert(1, 20)`: two nodes with
key `1` in bucket 1 (duplicate-chain entries). -/
def dupDict : DictT Nat Nat := (DictT.insert id 16 oneDict 1 20).1

/-! ### Chain-level lemmas -/

section ChainLemmas

variable {K V : Type} [DecidableEq K]

theorem setBucket_self (t : Nat → List (K × V)) (i : Nat) (l : List (K × V)) :
    setBucket t i l i = l := by
  simp [setBucket]

theorem setBucket_other (t : Nat → List (K × V)) (i : Nat) (l : List (K × V))
    {j : Nat} (h : j ≠ i) : setBucket t i l j = t j := by
  simp [setBucket, h]

theorem containsChain_false_iff (l : List (K × V)) (k : K) :
    containsChain l k = false ↔ countKey l k = 0 := by
  induction l with
  | nil => simp [containsChain, countKey]
  | cons p rest ih =>
    obtain ⟨k', v'⟩ := p
    by_cases h : k' = k
    · simp [containsChain, countKey, h]
    · simp [containsChain, countKey, h, ih]

theorem lookupChain_eq_none_iff (l : List (K × V)) (k : K) :
    lookupChain l k = none ↔ containsChain l k = false := by
  induction l with
  | nil => simp [lookupChain, containsChain]
  | cons p rest ih =>
    obtain ⟨k', v'⟩ := p
    by_cases h : k' = k
    · simp [lookupChain, containsChain, h]
    · simp [lookupChain, containsChain, h, ih]

theorem assignChain_eq_none_iff (l : List (K × V)) (k : K) (v : V) :
    assignChain l k v = none ↔ containsChain l k = false := by
  induction l with
  | nil => simp [assignChain, containsChain]
  | cons p rest ih =>
    obtain ⟨k', v'⟩ := p
    by_cases h : k' = k
    · simp [assignChain, containsChain, h]
    · simp [assignChain, containsChain, h, Option.map_eq_none', ih]

theorem assignChain_length {l l' : List (K × V)} {k : K} {v : V}
    (h : assignChain l k v = some l') : l'.length = l.length := by
  induction l generalizing l' with
  | nil => simp [assignChain] at h
  | cons p rest ih =>
    obtain ⟨k', v'⟩ := p
    by_cases hk : k' = k
    · simp only [assignChain, if_pos hk] at h
      cases h
      simp
    · simp only [assignChain, if_neg hk, Option.map_eq_some'] at h
      obtain ⟨t, ht, rfl⟩ := h
      simp [ih ht]

theorem assignChain_countKey {l l' : List (K × V)} {k : K} {v : V}
    (h : assignChain l k v = some l') (k'' : K) :
    countKey l' k'' = countKey l k'' := by
  induction l generalizing l' with
  | nil => simp [assignChain] at h
  | cons p rest ih =>
    obtain ⟨k', v'⟩ := p
    by_cases hk : k' = k
    · simp only [assignChain, if_pos hk] at h
      cases h
      simp [countKey]
    · simp only [assignChain, if_neg hk, Option.map_eq_some'] at h
      obtain ⟨t, ht, rfl⟩ := h
      simp [countKey, ih ht]

theorem assignChain_lookup_self {l l' : List (K × V)} {k : K} {v : V}
    (h : assignChain l k v = some l') : lookupChain l' k = some v := by
  induction l generalizing l' with
  | nil => simp [assignChain] at h
  | cons p rest ih =>
    obtain ⟨k', v'⟩ := p
    by_cases hk : k' = k
    · simp only [assignChain, if_pos hk] at h
      cases h
      simp [lookupChain, hk]
    · simp only [assignChain, if_neg hk, Option.map_eq_some'] at h
      obtain ⟨t, ht, rfl⟩ := h
      simp [lookupChain, hk, ih ht]

theorem assignChain_lookup_other {l l' : List (K × V)} {k : K} {v : V}
    (h : assignChain l k v = some l') {k'' : K} (hne : k'' ≠ k) :
    lookupChain l' k'' = lookupChain l k'' := by
  induction l generalizing l' with
  | nil => simp [assignChain] at h
  | cons p rest ih =>
    obtain ⟨k', v'⟩ := p
    by_cases hk : k' = k
    · simp only [assignChain, if_pos hk] at h
      cases h
      have : ¬ k' = k'' := fun hc => hne (hc ▸ hk ▸ rfl)
      simp [lookupChain, this]
    · simp only [assignChain, if_neg hk, Option.map_eq_some'] at h
      obtain ⟨t, ht, rfl⟩ := h
      by_cases hk2 : k' = k''
      · simp [lookupChain, hk2]
      · simp [lookupChain, hk2, ih ht]

theorem removeChain_eq_none_iff (l : List (K × V)) (k : K) :
    removeChain l k = none ↔ containsChain l k = false := by
  induction l with
  | nil => simp [removeChain, containsChain]
  | cons p rest ih =>
    obtain ⟨k', v'⟩ := p
    by_cases h : k' = k
    · simp [removeChain, containsChain, h]
    · simp [removeChain, containsChain, h, Option.map_eq_none', ih]

theorem removeChain_length {l l' : List (K × V)} {k : K}
    (h : removeChain l k = some l') : l'.length + 1 = l.length := by
  induction l generalizing l' with
  | nil => simp [removeChain] at h
  | cons p rest ih =>
    obtain ⟨k', v'⟩ := p
    by_cases hk : k' = k
    · simp only [removeChain, if_pos hk] at h
      cases h
      simp
    · simp only [removeChain, if_neg hk, Option.map_eq_some'] at h
      obtain ⟨t, ht, rfl⟩ := h
      simp [← ih ht]

theorem removeChain_countKey_self {l l' : List (K × V)} {k : K}
    (h : removeChain l k = some l') : countKey l' k + 1 = countKey l k := by
  induction l generalizing l' with
  | nil => simp [removeChain] at h
  | cons p rest ih =>
    obtain ⟨k', v'⟩ := p
    by_cases hk : k' = k
    · simp only [removeChain, if_pos hk] at h
      cases h
      simp [countKey, hk]
      omega
    · simp only [removeChain, if_neg hk, Option.map_eq_some'] at h
      obtain ⟨t, ht, rfl⟩ := h
      simp [countKey, hk, ← ih ht]

theorem removeChain_countKey_other {l l' : List (K × V)} {k : K}
    (h : removeChain l k = some l') {k'' : K} (hne : k'' ≠ k) :
    countKey l' k'' = countKey l k'' := by
  induction l generalizing l' with
  | nil => simp [removeChain] at h
  | cons p rest ih =>
    obtain ⟨k', v'⟩ := p
    by_cases hk : k' = k
    · simp only [removeChain, if_pos hk] at h
      cases h
      have : ¬ k' = k'' := fun hc => hne (hc ▸ hk ▸ rfl)
      simp [countKey, this]
    · simp only [removeChain, if_neg hk, Option.map_eq_some'] at h
      obtain ⟨t, ht, rfl⟩ := h
      simp [countKey, ih ht]

theorem removeChain_lookup_other {l l' : List (K × V)} {k : K}
    (h : removeChain l k = some l') {k'' : K} (hne : k'' ≠ k) :
    lookupChain l' k'' = lookupChain l k'' := by
  induction l generalizing l' with
  | nil => simp [removeChain] at h
  | cons p rest ih =>
    obtain ⟨k', v'⟩ := p
    by_cases hk : k' = k
    · simp only [removeChain, if_pos hk] at h
      cases h
      have : ¬ k' = k'' := fun hc => hne (hc ▸ hk ▸ rfl)
      simp [lookupChain, this]
    · simp only [removeChain, if_neg hk, Option.map_eq_some'] at h
      obtain ⟨t, ht, rfl⟩ := h
      by_cases hk2 : k' = k''
      · simp [lookupChain, hk2]
      · simp [lookupChain, hk2, ih ht]

theorem countKey_zero_lookup {l : List (K × V)} {k : K}
    (h : countKey l k = 0) : lookupChain l k = none := by
  rw [lookupChain_eq_none_iff, containsChain_false_iff]
  exact h

end ChainLemmas

/-! ### Table-level lemmas -/

section DictLemmas

variable {K V : Type} [DecidableEq K]

theorem sum_setBucket (g : List (K × V) → Nat) {t : Nat → List (K × V)}
    {i : Nat} {l : List (K × V)} {S : Nat} (hi : i < S) :
    (∑ j in Finset.range S, g (setBucket t i l j)) + g (t i)
      = (∑ j in Finset.range S, g (t j)) + g l := by
  have hmem : i ∈ Finset.range S := Finset.mem_range.mpr hi
  have h1 : (∑ j in Finset.range S, g (setBucket t i l j))
      = g l + ∑ j in (Finset.range S).erase i, g (t j) := by
    rw [← Finset.add_sum_erase _ (fun j => g (setBucket t i l j)) hmem,
      setBucket_self]
    congr 1
    refine Finset.sum_congr rfl ?_
    intro j hj
    rw [setBucket_other _ _ _ (Finset.ne_of_mem_erase hj)]
  have h2 : (∑ j in Finset.range S, g (t j))
      = g (t i) + ∑ j in (Finset.range S).erase i, g (t j) :=
    (Finset.add_sum_erase _ (fun j => g (t j)) hmem).symm
  omega

theorem keyIdx_lt (hash : K → Nat) {S : Nat} (hS : 0 < S) (k : K) :
    keyIdx hash S k < S :=
  Nat.mod_lt _ hS

theorem find_insert_self (hash : K → Nat) (S : Nat)
    (d : DictT K V) (k : K) (v : V) :
    DictT.find hash S (DictT.insert hash S d k v).1 k = some v := by
  simp [DictT.find, DictT.insert, setBucket_self, lookupChain]

theorem find_insert_other (hash : K → Nat) (S : Nat)
    (d : DictT K V) (k : K) (v : V) {k' : K} (hne : k' ≠ k) :
    DictT.find hash S (DictT.insert hash S d k v).1 k'
      = DictT.find hash S d k' := by
  by_cases hb : keyIdx hash S k' = keyIdx hash S k
  · have : ¬ k = k' := fun hc => hne hc.symm
    simp [DictT.find, DictT.insert, hb, setBucket_self, lookupChain, this]
  · simp [DictT.find, DictT.insert, setBucket_other _ _ _ hb]

theorem assignChain_some_contains {l : List (K × V)} {k : K} {v : V}
    {chain : List (K × V)} (hA : assignChain l k v = some chain) :
    containsChain l k = true := by
  by_contra hfalse
  rw [Bool.not_eq_true] at hfalse
  have hnone := (assignChain_eq_none_iff l k v).mpr hfalse
  rw [hA] at hnone
  simp at hnone

theorem find_insertOrAssign_self (hash : K → Nat) (S : Nat)
    (d : DictT K V) (k : K) (v : V) :
    DictT.find hash S (DictT.insertOrAssign hash S d k v).1 k = some v := by
  cases hA : assignChain (d.table (keyIdx hash S k)) k v with
  | some chain =>
    simp only [DictT.insertOrAssign, hA]
    simp [DictT.find, setBucket_self, assignChain_lookup_self hA]
  | none =>
    simp only [DictT.insertOrAssign, hA]
    simp [find_insert_self]

theorem find_insertOrAssign_other (hash : K → Nat) (S : Nat)
    (d : DictT K V) (k : K) (v : V) {k' : K} (hne : k' ≠ k) :
    DictT.find hash S (DictT.insertOrAssign hash S d k v).1 k'
      = DictT.find hash S d k' := by
  cases hA : assignChain (d.table (keyIdx hash S k)) k v with
  | some chain =>
    simp only [DictT.insertOrAssign, hA]
    by_cases hb : keyIdx hash S k' = keyIdx hash S k
    · simp [DictT.find, hb, setBucket_self, assignChain_lookup_other hA hne]
    · simp [DictT.find, setBucket_other _ _ _ hb]
  | none =>
    simp only [DictT.insertOrAssign, hA]
    simp [find_insert_other hash S d k v hne]

theorem countKey_insertOrAssign (hash : K → Nat) (S : Nat)
    (d : DictT K V) (k : K) (v : V) (k'' : K) (j : Nat) :
    countKey ((DictT.insertOrAssign hash S d k v).1.table j) k''
      = (if j = keyIdx hash S k ∧ k = k''
          ∧ containsChain (d.table (keyIdx hash S k)) k = false
         then 1 else 0) + countKey (d.table j) k'' := by
  cases hA : assignChain (d.table (keyIdx hash S k)) k v with
  | some chain =>
    have hcon := assignChain_some_contains hA
    simp only [DictT.insertOrAssign, hA]
    by_cases hj : j = keyIdx hash S k
    · subst hj
      simp [setBucket_self, assignChain_countKey hA, hcon]
    · simp [setBucket_other _ _ _ hj, hj]
  | none =>
    have hcon : containsChain (d.table (keyIdx hash S k)) k = false :=
      (assignChain_eq_none_iff (d.table (keyIdx hash S k)) k v).mp hA
    simp only [DictT.insertOrAssign, hA]
    by_cases hj : j = keyIdx hash S k
    · subst hj
      by_cases hkk : k = k''
      · subst hkk
        simp [DictT.insert, setBucket_self, countKey, hcon]
      · simp [DictT.insert, setBucket_self, countKey, hkk, hcon]
    · simp [DictT.insert, setBucket_other _ _ _ hj, hj]

end DictLemmas

/-! ### Sequences of operations -/

section SeqLemmas

variable {K V : Type} [DecidableEq K]

theorem runAssigns_append (hash : K → Nat) (S : Nat)
    (ops : List (K × V)) (p : K × V) :
    runAssigns hash S (ops ++ [p])
      = (DictT.insertOrAssign hash S (runAssigns hash S ops) p.1 p.2).1 := by
  simp [runAssigns, List.foldl_append]

theorem runInserts_append (hash : K → Nat) (S : Nat)
    (ops : List (K × V)) (p : K × V) :
    runInserts hash S (ops ++ [p])
      = (DictT.insert hash S (runInserts hash S ops) p.1 p.2).1 := by
  simp [runInserts, List.foldl_append]

theorem lastAssigned_append (ops : List (K × V)) (k0 : K) (v0 : V) (k : K) :
    lastAssigned (ops ++ [(k0, v0)]) k
      = if k0 = k then some v0 else lastAssigned ops k := by
  simp [lastAssigned, List.reverse_append, lookupChain]

theorem find_runAssigns (hash : K → Nat) (S : Nat)
    (ops : List (K × V)) (k : K) :
    DictT.find hash S (runAssigns hash S ops) k = lastAssigned ops k := by
  induction ops using List.reverseRecOn with
  | nil => rfl
  | append_singleton ops p ih =>
    obtain ⟨k0, v0⟩ := p
    rw [runAssigns_append, lastAssigned_append]
    by_cases hk : k0 = k
    · subst hk
      rw [find_insertOrAssign_self, if_pos rfl]
    · rw [find_insertOrAssign_other hash S _ k0 v0 (fun hc => hk hc.symm),
        ih, if_neg hk]

theorem find_runInserts (hash : K → Nat) (S : Nat)
    (ops : List (K × V)) (k : K) :
    DictT.find hash S (runInserts hash S ops) k = lastAssigned ops k := by
  induction ops using List.reverseRecOn with
  | nil => rfl
  | append_singleton ops p ih =>
    obtain ⟨k0, v0⟩ := p
    rw [runInserts_append, lastAssigned_append]
    by_cases hk : k0 = k
    · subst hk
      rw [find_insert_self, if_pos rfl]
    · rw [find_insert_other hash S _ k0 v0 (fun hc => hk hc.symm),
        ih, if_neg hk]

/-- Each bucket holds at most one node per key, and only the bucket a
key hashes to holds nodes with that key. -/
def AtMostOnePerKey (hash : K → Nat) (S : Nat) (d : DictT K V) : Prop :=
  ∀ k : K, countKey (d.table (keyIdx hash S k)) k ≤ 1 ∧
    ∀ j : Nat, j ≠ keyIdx hash S k → countKey (d.table j) k = 0

theorem atMostOne_empty (hash : K → Nat) (S : Nat) :
    AtMostOnePerKey hash S (DictT.empty : DictT K V) := by
  intro k
  exact ⟨by simp [DictT.empty, countKey], fun j _ => by simp [DictT.empty, countKey]⟩

theorem atMostOne_insertOrAssign (hash : K → Nat) (S : Nat) {d : DictT K V}
    (hd : AtMostOnePerKey hash S d) (k : K) (v : V) :
    AtMostOnePerKey hash S (DictT.insertOrAssign hash S d k v).1 := by
  intro k''
  constructor
  · rw [countKey_insertOrAssign]
    split
    · rename_i hcond
      obtain ⟨hj, hkk, hcon⟩ := hcond
      have h0 : countKey (d.table (keyIdx hash S k'')) k'' = 0 := by
        rw [← hkk] at *
        exact (containsChain_false_iff _ _).mp hcon
      omega
    · have := (hd k'').1
      omega
  · intro j hj
    rw [countKey_insertOrAssign]
    split
    · rename_i hcond
      obtain ⟨hjeq, hkk, _⟩ := hcond
      exact absurd (hjeq.trans (by rw [hkk])) hj
    · simp [(hd k'').2 j hj]

theorem atMostOne_runAssigns (hash : K → Nat) (S : Nat)
    (ops : List (K × V)) :
    AtMostOnePerKey hash S (runAssigns hash S ops) := by
  induction ops using List.reverseRecOn with
  | nil => exact atMostOne_empty hash S
  | append_singleton ops p ih =>
    rw [runAssigns_append]
    exact atMostOne_insertOrAssign hash S ih p.1 p.2

theorem keyNodes_le_one (hash : K → Nat) {S : Nat} (hS : 0 < S)
    {d : DictT K V} (hd : AtMostOnePerKey hash S d) (k : K) :
    keyNodes S d k ≤ 1 := by
  have h1 : keyNodes S d k = countKey (d.table (keyIdx hash S k)) k := by
    refine Finset.sum_eq_single (keyIdx hash S k) ?_ ?_
    · intro j _ hne
      exact (hd k).2 j hne
    · intro hnot
      exact absurd (Finset.mem_range.mpr (keyIdx_lt hash hS k)) hnot
  rw [h1]
  exact (hd k).1

theorem totalNodes_empty (S : Nat) :
    totalNodes S (DictT.empty : DictT K V) = 0 := by
  simp [DictT.empty, totalNodes]

theorem totalNodes_insert (hash : K → Nat) {S : Nat} (hS : 0 < S)
    (d : DictT K V) (k : K) (v : V) :
    totalNodes S (DictT.insert hash S d k v).1 = totalNodes S d + 1 := by
  have h := sum_setBucket (fun l => l.length) (t := d.table)
    (l := (k, v) :: d.table (keyIdx hash S k)) (keyIdx_lt hash hS k)
  simp only [List.length_cons] at h
  simp only [DictT.insert, totalNodes]
  omega

theorem totalNodes_runInserts (hash : K → Nat) {S : Nat} (hS : 0 < S)
    (ops : List (K × V)) :
    totalNodes S (runInserts hash S ops) = ops.length := by
  induction ops using List.reverseRecOn with
  | nil => exact totalNodes_empty S
  | append_singleton ops p ih =>
    rw [runInserts_append, totalNodes_insert hash hS, ih]
    simp

end SeqLemmas

/-! ### The count invariant -/

section CountInvariant

variable {K V : Type} [DecidableEq K]

theorem sizeW_eq : sizeW = 18446744073709551616 := by norm_num [sizeW]

theorem emplace_eq_insert (hash : K → Nat) (S : Nat)
    (d : DictT K V) (k : K) (v : V) :
    DictT.emplace hash S d k v = DictT.insert hash S d k v := rfl

theorem totalNodes_ge_bucket {S : Nat} (d : DictT K V) {i : Nat}
    (hi : i < S) : (d.table i).length ≤ totalNodes S d :=
  Finset.single_le_sum (f := fun j => (d.table j).length)
    (fun j _ => Nat.zero_le _) (Finset.mem_range.mpr hi)

theorem totalNodes_setBucket_add {S : Nat} (d : DictT K V) {i : Nat}
    (hi : i < S) (l : List (K × V)) (c : Nat) :
    totalNodes S
        ({ table := setBucket d.table i l, count := c } : DictT K V)
        + (d.table i).length
      = totalNodes S d + l.length :=
  sum_setBucket (fun l => l.length) hi

theorem count_insert_ok (hash : K → Nat) (S : Nat)
    (d : DictT K V) (k : K) (v : V) {t : Nat}
    (hc : d.count = t % sizeW) :
    (DictT.insert hash S d k v).1.count = (t + 1) % sizeW := by
  have h1 : (DictT.insert hash S d k v).1.count = (d.count + 1) % sizeW := rfl
  rw [h1, hc, sizeW_eq]
  omega

theorem applyOp_invariant (hash : K → Nat) {S : Nat} (hS : 0 < S)
    (d : DictT K V) (op : DictOp K V)
    (hc : d.count = totalNodes S d % sizeW) :
    (applyOp hash S d op).count
      = totalNodes S (applyOp hash S d op) % sizeW ∧
    totalNodes S (applyOp hash S d op) ≤ totalNodes S d + 1 := by
  cases op with
  | ins k v =>
    simp only [applyOp]
    have ht := totalNodes_insert hash hS d k v
    have h2 := count_insert_ok hash S d k v hc
    refine ⟨?_, by omega⟩
    rw [h2, ht]
  | asg k v =>
    simp only [applyOp]
    cases hA : assignChain (d.table (keyIdx hash S k)) k v with
    | some chain =>
      simp only [DictT.insertOrAssign, hA]
      have hlen := assignChain_length hA
      have ht := totalNodes_setBucket_add d (keyIdx_lt hash hS k) chain d.count
      have htot : totalNodes S
          ({ table := setBucket d.table (keyIdx hash S k) chain,
             count := d.count } : DictT K V) = totalNodes S d := by omega
      refine ⟨?_, by omega⟩
      rw [htot]
      exact hc
    | none =>
      simp only [DictT.insertOrAssign, hA]
      have ht := totalNodes_insert hash hS d k v
      have h2 := count_insert_ok hash S d k v hc
      refine ⟨?_, by omega⟩
      rw [h2, ht]
  | emp k v =>
    simp only [applyOp, emplace_eq_insert]
    have ht := totalNodes_insert hash hS d k v
    have h2 := count_insert_ok hash S d k v hc
    refine ⟨?_, by omega⟩
    rw [h2, ht]
  | tryEmp k v =>
    simp only [applyOp, DictT.tryEmplace]
    cases hcon : containsChain (d.table (keyIdx hash S k)) k with
    | true =>
      rw [if_pos rfl]
      exact ⟨hc, Nat.le_succ _⟩
    | false =>
      rw [if_neg (by simp), emplace_eq_insert]
      have ht := totalNodes_insert hash hS d k v
      have h2 := count_insert_ok hash S d k v hc
      refine ⟨?_, by omega⟩
      rw [h2, ht]
  | rem k =>
    simp only [applyOp]
    cases hR : removeChain (d.table (keyIdx hash S k)) k with
    | some chain =>
      simp only [DictT.remove, hR]
      have hlen := removeChain_length hR
      have ht := totalNodes_setBucket_add d (keyIdx_lt hash hS k) chain
        ((d.count + (sizeW - 1)) % sizeW)
      have hbound := totalNodes_ge_bucket d (keyIdx_lt hash hS k)
      refine ⟨?_, by omega⟩
      rw [sizeW_eq] at *
      omega
    | none =>
      simp only [DictT.remove, hR]
      exact ⟨hc, Nat.le_succ _⟩
  | clr =>
    simp only [applyOp, DictT.clear]
    have h0 : totalNodes S
        ({ table := fun _ => [], count := 0 } : DictT K V) = 0 := by
      simp [totalNodes]
    rw [h0]
    exact ⟨by simp, by omega⟩

theorem runFrom_invariant (hash : K → Nat) {S : Nat} (hS : 0 < S)
    (ops : List (DictOp K V)) :
    ∀ d : DictT K V, d.count = totalNodes S d % sizeW →
      (ops.foldl (applyOp hash S) d).count
        = totalNodes S (ops.foldl (applyOp hash S) d) % sizeW ∧
      totalNodes S (ops.foldl (applyOp hash S) d)
        ≤ totalNodes S d + ops.length := by
  induction ops with
  | nil => exact fun d hd => ⟨hd, Nat.le_add_right _ _⟩
  | cons op ops ih =>
    intro d hd
    obtain ⟨h1, h2⟩ := applyOp_invariant hash hS d op hd
    obtain ⟨h3, h4⟩ := ih (applyOp hash S d op) h1
    simp only [List.foldl_cons, List.length_cons]
    exact ⟨h3, by omega⟩

end CountInvariant

/-! ### The claims -/

section Claims

variable {K V T : Type} [DecidableEq K]

/-- Claim C1: for every sequence of sequential `insert_or_assign` calls
with keys k1..kn and values v1..vn on `dictionary_t`, a subsequent
`find(ki)` returns the last value assigned to ki, and ki occurs in at
most one node of the table (`insert_or_assign` never creates duplicate
entries for a key). -/
theorem insert_or_assign_last_wins (hash : K → Nat) (S : Nat) (hS : 0 < S)
    (ops : List (K × V)) (k : K) :
    DictT.find hash S (runAssigns hash S ops) k = lastAssigned ops k ∧
    keyNodes S (runAssigns hash S ops) k ≤ 1 :=
  ⟨find_runAssigns hash S ops k,
   keyNodes_le_one hash hS (atMostOne_runAssigns hash S ops) k⟩

theorem insert_or_assign_last_wins_witness :
    DictT.find id 16 (runAssigns id 16 [(1, 10), (2, 20), (1, 30)]) 1
      = some 30 ∧
    keyNodes 16 (runAssigns id 16 [(1, 10), (2, 20), (1, 30)]) 1 ≤ 1 := by
  have h := insert_or_assign_last_wins id 16 (by decide)
    [(1, 10), (2, 20), (1, 30)] 1
  exact ⟨h.1.trans (by decide), h.2⟩

/-- Claim C2 (refuted — code bug): on a non-empty `buffer_t<unsigned,4>`
with `head = 0`, `tail = 1`, `data[0] = 42`, the claim says `pull`/`pop`
return the element at the head slot, advance the head index by one mod
S and leave the tail unchanged.  In the code, `pull` returns the
element but executes `tail_.store(tail)` instead of storing the
advanced head, so `head_` stays 0 (the buffer state is completely
unchanged and the same slot would be consumed forever); `pop`
additionally returns the incremented local head index `1` instead of
the element `42`. -/
theorem buffer_pull_pop_bug :
    (BufferT.pull 4 demoBuf).2 = some 42 ∧
    (BufferT.pull 4 demoBuf).1.head = 0 ∧
    (BufferT.pull 4 demoBuf).1.tail = 1 ∧
    (BufferT.pop 4 demoBuf).2 = some 1 ∧
    (BufferT.pop 4 demoBuf).2 ≠ some 42 := by decide

/-- Claim C3 (refuted — code bug): on an empty stack (occupancy 0) the
claim says `pop()` returns the empty optional and `pull` returns false,
rolling back so the counter is unchanged.  The code tests the
pre-decrement value (`0 < 0` fails), so both calls "succeed", return
the contents of the uninitialised slot 0, and leave the counter at -1. -/
theorem stack_pop_empty_bug :
    (StackT.pop emptyStack).2 = some 0 ∧
    (StackT.pull emptyStack).2 = some 0 ∧
    (StackT.pop emptyStack).1.count = -1 ∧
    (StackT.pull emptyStack).1.count = -1 := by decide

/-- Claim C4 (refuted — code bug): pushing 42 onto an empty
`stack_t<unsigned, 4>` succeeds and stores it at slot 0, but the
immediately following `pop()` reads slot 1 (the pre-decrement counter
value), returning the uninitialised slot contents instead of 42. -/
theorem stack_push_pop_bug :
    (StackT.push 4 emptyStack 42).2 = true ∧
    (StackT.pop (StackT.push 4 emptyStack 42).1).2 = some 0 ∧
    (StackT.pop (StackT.push 4 emptyStack 42).1).2 ≠ some 42 := by decide

/-- Claim C5: after every sequence of sequential dictionary operations
(insert, insert_or_assign, emplace, try_emplace, remove, clear) on a
fresh table, `size()` equals the total number of nodes reachable from
all bucket heads (stated for every sequence of fewer than `2^64`
operations, the range in which the `size_t` counter cannot wrap). -/
theorem dict_size_eq_reachable (hash : K → Nat) (S : Nat) (hS : 0 < S)
    (ops : List (DictOp K V)) (hlen : ops.length < sizeW) :
    DictT.size (runOps hash S ops) = totalNodes S (runOps hash S ops) := by
  have hemp : (DictT.empty : DictT K V).count
      = totalNodes S (DictT.empty : DictT K V) % sizeW := by
    simp [DictT.empty, totalNodes]
  obtain ⟨h1, h2⟩ := runFrom_invariant hash hS ops DictT.empty hemp
  have h0 := totalNodes_empty (K := K) (V := V) S
  have hlt : totalNodes S (ops.foldl (applyOp hash S) DictT.empty)
      < sizeW := by omega
  show (ops.foldl (applyOp hash S) (DictT.empty : DictT K V)).count
      = totalNodes S (ops.foldl (applyOp hash S) DictT.empty)
  rw [h1, Nat.mod_eq_of_lt hlt]

theorem dict_size_eq_reachable_witness :
    DictT.size (runOps id 16
        [DictOp.ins 3 (5 : Nat), DictOp.rem 3, DictOp.asg 2 7])
      = totalNodes 16 (runOps id 16
        [DictOp.ins 3 (5 : Nat), DictOp.rem 3, DictOp.asg 2 7]) :=
  dict_size_eq_reachable id 16 (by decide) _ (by decide)

/-- Claim C6, counterexample: after two plain `insert(1, …)` calls the
table holds two nodes for key 1; one `remove(1)` unlinks only the first
match, so `contains(1)` is still true immediately afterwards — the
claim asserts it is false for every dictionary state. -/
theorem remove_contains_cex :
    (DictT.remove id 16 dupDict 1).2 = true ∧
    DictT.contains id 16 (DictT.remove id 16 dupDict 1).1 1 = true := by
  decide

/-- Claim C6 (amended): for every dictionary state whose bucket chain
for `k` holds at most one node with key `k` (in particular any state
built without duplicate plain inserts), `remove(k)` followed
immediately by `contains(k)` yields false; and `remove(k)` on an absent
key returns false and leaves the table completely unchanged. -/
theorem remove_then_contains (hash : K → Nat) (S : Nat)
    (d : DictT K V) (k : K)
    (h1 : countKey (d.table (keyIdx hash S k)) k ≤ 1) :
    DictT.contains hash S (DictT.remove hash S d k).1 k = false ∧
    (DictT.contains hash S d k = false →
      DictT.remove hash S d k = (d, false)) := by
  constructor
  · cases hR : removeChain (d.table (keyIdx hash S k)) k with
    | none =>
      have hcon := (removeChain_eq_none_iff _ _).mp hR
      simp only [DictT.remove, hR]
      exact hcon
    | some chain =>
      have hcnt := removeChain_countKey_self hR
      have h0 : countKey chain k = 0 := by omega
      simp only [DictT.remove, hR, DictT.contains]
      rw [setBucket_self]
      exact (containsChain_false_iff chain k).mpr h0
  · intro h
    have hcc : containsChain (d.table (keyIdx hash S k)) k = false := h
    have hR := (removeChain_eq_none_iff (d.table (keyIdx hash S k)) k).mpr hcc
    simp only [DictT.remove, hR]

theorem remove_then_contains_witness :
    DictT.contains id 16 (DictT.remove id 16 oneDict 1).1 1 = false ∧
    DictT.remove id 16 oneDict 2 = (oneDict, false) :=
  ⟨(remove_then_contains id 16 oneDict 1 (by decide)).1,
   (remove_then_contains id 16 oneDict 2 (by decide)).2 (by decide)⟩

/-- Claim C7: `try_emplace(k, v)` on a table already containing `k`
returns failure and leaves the existing value and the whole table
unchanged; on a table not containing `k` it returns success and
`find(k)` afterwards yields `v`. -/
theorem try_emplace_spec (hash : K → Nat) (S : Nat)
    (d : DictT K V) (k : K) (v : V) :
    (DictT.contains hash S d k = true →
      DictT.tryEmplace hash S d k v = (d, false)) ∧
    (DictT.contains hash S d k = false →
      (DictT.tryEmplace hash S d k v).2 = true ∧
      DictT.find hash S (DictT.tryEmplace hash S d k v).1 k = some v) := by
  constructor
  · intro h
    have hcc : containsChain (d.table (keyIdx hash S k)) k = true := h
    simp only [DictT.tryEmplace]
    rw [hcc, if_pos rfl]
  · intro h
    have hcc : containsChain (d.table (keyIdx hash S k)) k = false := h
    simp only [DictT.tryEmplace]
    rw [hcc, if_neg (by simp), emplace_eq_insert]
    exact ⟨rfl, find_insert_self hash S d k v⟩

theorem try_emplace_spec_witness :
    DictT.tryEmplace id 16 oneDict 1 99 = (oneDict, false) ∧
    (DictT.tryEmplace id 16 oneDict 2 20).2 = true ∧
    DictT.find id 16 (DictT.tryEmplace id 16 oneDict 2 20).1 2 = some 20 :=
  ⟨(try_emplace_spec id 16 oneDict 1 99).1 (by decide),
   ((try_emplace_spec id 16 oneDict 2 20).2 (by decide)).1,
   ((try_emplace_spec id 16 oneDict 2 20).2 (by decide)).2⟩

/-- Claim C8: every `insert(key, value)` call succeeds and adds a new
node — the reachable node count grows by one even when an equal key is
already present — and after any sequence of plain inserts on a fresh
table, `find(k)` and `at(k)` return the value of the most recent insert
with key `k` (new nodes are prepended and lookup returns the first
match). -/
theorem insert_prepends_and_wins (hash : K → Nat) (S : Nat) (hS : 0 < S)
    (ops : List (K × V)) (k : K) (d : DictT K V) (k0 : K) (v0 : V) :
    (DictT.insert hash S d k0 v0).2 = true ∧
    totalNodes S (DictT.insert hash S d k0 v0).1 = totalNodes S d + 1 ∧
    DictT.find hash S (runInserts hash S ops) k = lastAssigned ops k ∧
    DictT.atVal hash S (runInserts hash S ops) k = lastAssigned ops k ∧
    totalNodes S (runInserts hash S ops) = ops.length :=
  ⟨rfl, totalNodes_insert hash hS d k0 v0,
   find_runInserts hash S ops k, find_runInserts hash S ops k,
   totalNodes_runInserts hash hS ops⟩

theorem insert_prepends_and_wins_witness :
    (DictT.insert id 16 (DictT.empty : DictT Nat Nat) 1 10).2 = true ∧
    totalNodes 16 (DictT.insert id 16 (DictT.empty : DictT Nat Nat) 1 10).1
      = totalNodes 16 (DictT.empty : DictT Nat Nat) + 1 ∧
    DictT.find id 16 (runInserts id 16 [(1, 10), (1, 20)]) 1 = some 20 ∧
    DictT.atVal id 16 (runInserts id 16 [(1, 10), (1, 20)]) 1 = some 20 ∧
    totalNodes 16 (runInserts id 16 [(1, 10), (1, 20)]) = 2 := by
  have h := insert_prepends_and_wins id 16 (by decide) [(1, 10), (1, 20)] 1
    DictT.empty 1 10
  exact ⟨h.1, h.2.1, h.2.2.1.trans (by decide), h.2.2.2.1.trans (by decide),
    h.2.2.2.2.trans (by decide)⟩

/-- Claim C9: `stack_t::size()` always returns a value between 0 and S
inclusive: a transiently negative counter reads as 0, and a counter
above S reads as S.  (`hw` restricts the counter to the value range of
the C++ `int` that backs it.) -/
theorem stack_size_clamped (S : Nat) (s : StackT T)
    (hw : s.count < 2 ^ 31) :
    StackT.size S s ≤ S ∧
    (s.count < 0 → StackT.size S s = 0) ∧
    ((S : Int) < s.count → StackT.size S s = S) := by
  simp only [StackT.size, intToSize]
  refine ⟨?_, ?_, ?_⟩ <;> split_ifs <;> omega

theorem stack_size_clamped_witness :
    StackT.size 5 ({ count := -3, data := fun _ => 0 } : StackT Nat) = 0 ∧
    StackT.size 5 ({ count := 9, data := fun _ => 0 } : StackT Nat) = 5 :=
  ⟨(stack_size_clamped 5 _ (by decide)).2.1 (by decide),
   (stack_size_clamped 5 _ (by decide)).2.2 (by decide)⟩

/-- Claim C10: a successful `remove(k)` unlinks exactly one node — the
first match in k's bucket chain, which (new nodes being prepended) is
the most recently inserted entry for `k`; every other bucket, the rest
of the chain, and lookups for every other key are unchanged; one node
disappears overall; and `remove(k)` right after an `insert(k, v)`
restores the previous table, so duplicates of `k` from earlier plain
inserts remain reachable. -/
theorem remove_unlinks_first_match (hash : K → Nat) (S : Nat) (hS : 0 < S)
    (d : DictT K V) (k : K)
    (h : containsChain (d.table (keyIdx hash S k)) k = true) :
    (DictT.remove hash S d k).2 = true ∧
    removeChain (d.table (keyIdx hash S k)) k
      = some ((DictT.remove hash S d k).1.table (keyIdx hash S k)) ∧
    countKey ((DictT.remove hash S d k).1.table (keyIdx hash S k)) k + 1
      = countKey (d.table (keyIdx hash S k)) k ∧
    (∀ j : Nat, j ≠ keyIdx hash S k →
      (DictT.remove hash S d k).1.table j = d.table j) ∧
    (∀ k' : K, k' ≠ k →
      DictT.find hash S (DictT.remove hash S d k).1 k'
        = DictT.find hash S d k') ∧
    totalNodes S (DictT.remove hash S d k).1 + 1 = totalNodes S d ∧
    (∀ v : V,
      (DictT.remove hash S (DictT.insert hash S d k v).1 k).1.table
        = d.table) := by
  cases hR : removeChain (d.table (keyIdx hash S k)) k with
  | none =>
    rw [removeChain_eq_none_iff, h] at hR
    simp at hR
  | some chain =>
    simp only [DictT.remove, hR]
    have hcnt := removeChain_countKey_self hR
    have hlen := removeChain_length hR
    have hts := totalNodes_setBucket_add d (keyIdx_lt hash hS k) chain
      ((d.count + (sizeW - 1)) % sizeW)
    refine ⟨trivial, ?_, ?_, ?_, ?_, ?_, ?_⟩
    · rw [setBucket_self]
    · rw [setBucket_self]
      exact hcnt
    · intro j hj
      exact setBucket_other _ _ _ hj
    · intro k' hk
      by_cases hb : keyIdx hash S k' = keyIdx hash S k
      · simp only [DictT.find, hb]
        rw [setBucket_self]
        exact removeChain_lookup_other hR hk
      · simp only [DictT.find]
        rw [setBucket_other _ _ _ hb]
    · omega
    · intro v
      have hrc : removeChain
          ((DictT.insert hash S d k v).1.table (keyIdx hash S k)) k
          = some (d.table (keyIdx hash S k)) := by
        simp only [DictT.insert]
        rw [setBucket_self]
        simp [removeChain]
      simp only [DictT.remove, hrc]
      funext j
      simp only [DictT.insert]
      by_cases hj : j = keyIdx hash S k
      · subst hj
        rw [setBucket_self]
      · rw [setBucket_other _ _ _ hj, setBucket_other _ _ _ hj]

theorem remove_unlinks_first_match_witness :
    (DictT.remove id 16 dupDict 1).2 = true ∧
    DictT.find id 16 (DictT.remove id 16 dupDict 1).1 2
      = DictT.find id 16 dupDict 2 :=
  ⟨(remove_unlinks_first_match id 16 (by decide) dupDict 1 (by decide)).1,
   (remove_unlinks_first_match id 16 (by decide) dupDict 1
      (by decide)).2.2.2.2.1 2 (by decide)⟩

end Claims

end ModernCLI
